import Mathlib

/-!
Verification of the red-analysis core of the Video_image_analyzer repository
(`src/red/redlog.py`, `src/red/bleed_detector.py`, `src/red/bleed_spread.py`).

Embedding conventions:
* Python floats are modelled as exact rationals (ℚ); `numpy` standard
  deviation, which takes a real square root, is modelled with `Real.sqrt`
  applied to the rational population variance.
* Images are modelled as flattened lists of pixels; each pixel carries the
  HSV components consumed by the red classifier (`cv2.inRange` after the
  external `cv2.cvtColor` conversion) and the grayscale intensity consumed by
  the background-difference computation.
* Boolean masks are lists of `Bool`; `mask & roi` becomes `List.zipWith and`,
  `np.count_nonzero` becomes `List.count true`.
* Python `round` (used with no digit argument in `int(round(k_s * fps))` and
  with 6 digits in `round(delta_max, 6)`) is round-half-to-even, modelled by
  `pyRound` / `round6`.
-/

/-- Python `round` to the nearest integer, ties going to the even integer. -/
def pyRound (q : ℚ) : ℤ :=
  let f := ⌊q⌋
  if q - f < 1 / 2 then f
  else if 1 / 2 < q - f then f + 1
  else if 2 ∣ f then f else f + 1

/-- Python `round(x, 6)`: round to six decimal places, ties to even. -/
def round6 (q : ℚ) : ℚ :=
  (pyRound (q * 1000000) : ℚ) / 1000000

/-- `max` of a list, as produced by Python `max(...)` / `np.max(...)` on a
nonempty collection (the `headD 0` default is never reached on the nonempty
lists the code applies it to). -/
def listMax (l : List ℚ) : ℚ :=
  l.foldl max (l.headD 0)

/-- `np.mean` over a flattened array (population mean). -/
def npMean (l : List ℚ) : ℚ :=
  l.sum / l.length

/-- The population variance underlying `np.std` (squared standard
deviation). -/
def npVar (l : List ℚ) : ℚ :=
  (l.map (fun x => (x - npMean l) ^ 2)).sum / l.length

/-- One image pixel, reduced to the attributes the analysis reads: the HSV
components produced by `cv2.cvtColor(..., COLOR_BGR2HSV)` and the grayscale
intensity produced by `cv2.cvtColor(..., COLOR_BGR2GRAY)` (the colour-space
conversions themselves are external OpenCV collaborators). -/
structure Pixel where
  h : ℕ
  s : ℕ
  v : ℕ
  gray : ℕ
deriving DecidableEq

/-- `cv2.inRange(hsv, [lo1, lo2, lo3], [hi1, hi2, hi3])` at one pixel. -/
def inRange3 (lo1 lo2 lo3 hi1 hi2 hi3 : ℕ) (p : Pixel) : Bool :=
  decide (lo1 ≤ p.h ∧ p.h ≤ hi1 ∧ lo2 ≤ p.s ∧ p.s ≤ hi2 ∧ lo3 ≤ p.v ∧ p.v ≤ hi3)

/-- The red mask of `redlog.compute_red_ratio` / `bleed_detector.make_red_mask`:
`mask1 | mask2` with hue ranges `[0, 10]` and `[170, 179]`, saturation in
`[s_min, 255]`, value in `[v_min, 255]`. -/
def makeRedMask (sMin vMin : ℕ) (frame : List Pixel) : List Bool :=
  frame.map (fun p =>
    inRange3 0 sMin vMin 10 255 255 p || inRange3 170 sMin vMin 179 255 255 p)

/-- `redlog.compute_red_ratio`: red-pixel count over total pixel count, the
total being the ROI-true count when an ROI is supplied and the full frame
size otherwise; a zero total returns `0.0`. -/
def computeRedRatio (frame : List Pixel) (roiMask : Option (List Bool))
    (sMin vMin : ℕ) : ℚ :=
  let redMask := makeRedMask sMin vMin frame
  match roiMask with
  | some roi =>
      let redMask2 := redMask.zipWith (fun a b => a && b) roi
      let totalPixels : ℕ := roi.count true
      if totalPixels = 0 then 0
      else (redMask2.count true : ℚ) / (totalPixels : ℚ)
  | none =>
      let totalPixels : ℕ := frame.length
      if totalPixels = 0 then 0
      else (redMask.count true : ℚ) / (totalPixels : ℚ)

/-- The record returned by `bleed_detector.compute_red_expansion`. -/
structure ExpansionMetrics where
  redRatio : ℚ
  newlyRedRatio : ℚ
  bgStability : ℚ
  redExpansion : ℚ
deriving DecidableEq

/-- `bleed_detector.compute_red_expansion` on a consecutive frame pair:
red masks of both frames (ANDed with the ROI when present), newly-red ratio,
background stability from the mean grayscale difference over pixels non-red
in both frames, and their product `red_expansion`. -/
def computeRedExpansion (prevFrame currFrame : List Pixel)
    (roiMask : Option (List Bool)) (sMin vMin : ℕ) (bgNormFactor : ℚ) :
    ExpansionMetrics :=
  let redPrev0 := makeRedMask sMin vMin prevFrame
  let redCurr0 := makeRedMask sMin vMin currFrame
  let redPrev := match roiMask with
    | some roi => redPrev0.zipWith (fun a b => a && b) roi
    | none => redPrev0
  let redCurr := match roiMask with
    | some roi => redCurr0.zipWith (fun a b => a && b) roi
    | none => redCurr0
  let totalPixels : ℕ := match roiMask with
    | some roi => roi.count true
    | none => currFrame.length
  if totalPixels = 0 then ⟨0, 0, 1, 0⟩
  else
    let redRatio : ℚ := (redCurr.count true : ℚ) / (totalPixels : ℚ)
    let newlyRed0 := redCurr.zipWith (fun c p => c && !p) redPrev
    let newlyRed := match roiMask with
      | some roi => newlyRed0.zipWith (fun a b => a && b) roi
      | none => newlyRed0
    let newlyRedRatio : ℚ := (newlyRed.count true : ℚ) / (totalPixels : ℚ)
    let frameDiff : List ℕ := prevFrame.zipWith
      (fun p c => max p.gray c.gray - min p.gray c.gray) currFrame
    let nonRed0 := (redPrev.zipWith (fun a b => a || b) redCurr).map (fun b => !b)
    let nonRed := match roiMask with
      | some roi => nonRed0.zipWith (fun a b => a && b) roi
      | none => nonRed0
    let nonRedCount : ℕ := nonRed.count true
    let bgDiffSum : ℕ :=
      (frameDiff.zipWith (fun d b => if b then d else 0) nonRed).sum
    let bgDiff : ℚ :=
      if 0 < nonRedCount then (bgDiffSum : ℚ) / (nonRedCount : ℚ)
      else 0
    let bgStability : ℚ := 1 - min (bgDiff / bgNormFactor) 1
    ⟨redRatio, newlyRedRatio, bgStability, newlyRedRatio * bgStability⟩

/-- `redlog.smooth_center`: centered moving average; the window shrinks at the
ends (`lo = max(0, i - half)` is ℕ subtraction, `hi = min(n, i + half + 1)`);
the `n == 0 or window <= 1` branch returns the input list. -/
def smoothCenter (values : List ℚ) (window : ℕ) : List ℚ :=
  let n := values.length
  if n = 0 ∨ window ≤ 1 then values
  else
    let half := window / 2
    (List.range n).map fun i =>
      let lo := i - half
      let hi := min n (i + half + 1)
      ((values.drop lo).take (hi - lo)).sum / ((hi - lo : ℕ) : ℚ)

/-- `min_samples = max(1, int(round(k_s * fps)))` of
`redlog.extract_bleed_events`. -/
def minSamples (kS fps : ℚ) : ℕ :=
  (max 1 (pyRound (kS * fps))).toNat

/-- The event record built by `redlog._add_event` (the Python `end` key is
named `stop` here because `end` is a Lean keyword). -/
structure Event where
  type : String
  metric : String
  thr : ℚ
  kS : ℚ
  smoothS : ℚ
  deltaMax : ℚ
  start : ℚ
  stop : ℚ
deriving DecidableEq

/-- `redlog._add_event`: the event for the run `[startIdx, endIdx)`, with
`delta_max = round(max(smooth_deltas[start_idx:end_idx]), 6)`,
`start = times[start_idx]`, `end = times[end_idx - 1]`. -/
def addEvent (times smoothDeltas : List ℚ) (thr kS smoothS : ℚ)
    (startIdx endIdx : ℕ) : Event :=
  { type := "bleed_candidate"
    metric := "red_ratio"
    thr := thr
    kS := kS
    smoothS := smoothS
    deltaMax := round6 (listMax ((smoothDeltas.drop startIdx).take (endIdx - startIdx)))
    start := times.getD startIdx 0
    stop := times.getD (endIdx - 1) 0 }

/-- The scan loop of `redlog.extract_bleed_events`, as a recursion over the
remaining samples: `i` is the index of the head of `rest` in the full series,
`inEvent` / `startIdx` are the loop state.  It returns the list of runs
`(start_idx, end_idx)` that pass the `length >= min_samples` debounce, in scan
order; the `[]` case is the end-of-series close of the Python code. -/
def scanRuns (thr : ℚ) (minSamp : ℕ) :
    ℕ → Bool → ℕ → List ℚ → List (ℕ × ℕ)
  | i, inEvent, startIdx, [] =>
      if inEvent ∧ minSamp ≤ i - startIdx then [(startIdx, i)] else []
  | i, inEvent, startIdx, value :: rest =>
      if thr < value then
        if inEvent then scanRuns thr minSamp (i + 1) true startIdx rest
        else scanRuns thr minSamp (i + 1) true i rest
      else
        if inEvent then
          (if minSamp ≤ i - startIdx then [(startIdx, i)] else []) ++
            scanRuns thr minSamp (i + 1) false startIdx rest
        else scanRuns thr minSamp (i + 1) false startIdx rest

/-- `redlog.extract_bleed_events`: threshold-crossing segmentation with the
minimum-duration debounce, mapping every surviving run to its event record. -/
def extractBleedEvents (times smoothDeltas : List ℚ)
    (thr kS fps smoothS : ℚ) : List Event :=
  if smoothDeltas.length = 0 then []
  else
    (scanRuns thr (minSamples kS fps) 0 false 0 smoothDeltas).map
      fun r => addEvent times smoothDeltas thr kS smoothS r.1 r.2

/-- `redlog.make_circular_roi`.  The source tests
`sqrt((x - cx)^2 + (y - cy)^2) <= radius`; since the left side is the
nonnegative square root of the rational `dist2`, this is equivalent to
`0 <= radius ∧ dist2 <= radius^2`, which is the form used here to stay in ℚ. -/
def makeCircularRoi (height width : ℕ) (margin : ℚ) : List (List Bool) :=
  let cy : ℚ := (height : ℚ) / 2
  let cx : ℚ := (width : ℚ) / 2
  let radius : ℚ := (min height width : ℕ) * (1 / 2 - margin)
  (List.range height).map fun y =>
    (List.range width).map fun x =>
      decide (0 ≤ radius ∧
        ((x : ℚ) - cx) ^ 2 + ((y : ℚ) - cy) ^ 2 ≤ radius ^ 2)

/-- The cell boundary of `bleed_spread.compute_cell_ratios`:
`int(r * (h / grid_size))` — Python `int` truncates toward zero, which on this
nonnegative operand is the floor.  Row `r` covers pixel rows
`[cellBound h g r, cellBound h g (r + 1))`; the code computes `y1` of row `r`
and `y0` of row `r + 1` by the same expression.  Columns are the same formula
with the width. -/
def cellBound (h gridSize r : ℕ) : ℕ :=
  (⌊(r : ℚ) * ((h : ℚ) / (gridSize : ℚ))⌋).toNat

/-- The record returned by `bleed_spread.compute_spread_score`. -/
structure SpreadMetrics where
  maxCellDelta : ℚ
  deltaStd : ℝ
  spreadScore : ℝ
  nRisingCells : ℕ

/-- `bleed_spread.compute_spread_score` on two (flattened) cell grids:
elementwise `cell_deltas = curr - prev`, `positive_deltas = max(cell_deltas, 0)`,
`max_cell_delta = np.max(positive_deltas)`,
`delta_std = np.std(cell_deltas)` (real square root of the population
variance), rising-cell count with the fixed `0.01` floor, and
`spread_score = delta_std * max_cell_delta`. -/
noncomputable def computeSpreadScore (prevCells currCells : List ℚ) :
    SpreadMetrics :=
  let cellDeltas := currCells.zipWith (fun c p => c - p) prevCells
  let positiveDeltas := cellDeltas.map (fun d => max d 0)
  let maxCellDelta := listMax positiveDeltas
  let deltaStd : ℝ := Real.sqrt ((npVar cellDeltas : ℚ) : ℝ)
  let nRising := (positiveDeltas.filter (fun d => decide (1 / 100 < d))).length
  { maxCellDelta := maxCellDelta
    deltaStd := deltaStd
    spreadScore := deltaStd * maxCellDelta
    nRisingCells := nRising }

/-- Timestamps of the spec's concrete scenario: 50 samples at 5 fps,
`t[i] = 0.2 * i`. -/
def scenarioTimes : List ℚ :=
  (List.range 50).map fun i => (i : ℚ) / 5

/-- Smoothed series of the spec's concrete scenario: `0.01` everywhere except
indices `[10, 30)`, which hold `0.05`. -/
def scenarioValues : List ℚ :=
  (List.range 50).map fun i =>
    if 10 ≤ i ∧ i < 30 then 5 / 100 else 1 / 100

set_option maxHeartbeats 1000000 in
/-- C1: on the concrete scenario (50 samples at 5 fps, values 0.01 except
0.05 on indices [10, 30), thr = 0.03, k_s = 3.0) the extractor returns
exactly one event, with start 2.0, end 5.8, and peak 0.05. -/
theorem scenario_single_event :
    extractBleedEvents scenarioTimes scenarioValues (3 / 100) 3 5 5 =
      [{ type := "bleed_candidate", metric := "red_ratio", thr := 3 / 100,
         kS := 3, smoothS := 5, deltaMax := 1 / 20, start := 2,
         stop := 29 / 5 }] := by
  have h50 : List.range 50 = [0, 1, 2, 3, 4, 5, 6, 7, 8, 9, 10, 11, 12, 13,
      14, 15, 16, 17, 18, 19, 20, 21, 22, 23, 24, 25, 26, 27, 28, 29, 30, 31,
      32, 33, 34, 35, 36, 37, 38, 39, 40, 41, 42, 43, 44, 45, 46, 47, 48,
      49] := by rfl
  have hmin : minSamples 3 5 = 15 := by
    norm_num [minSamples, pyRound]
    rfl
  norm_num [extractBleedEvents, scenarioTimes, scenarioValues, h50, hmin,
    scanRuns, addEvent, round6, pyRound, listMax]

/-- C4: a sample exactly equal to `thr` is treated as outside an event by the
scan loop of `extract_bleed_events`: in the OUTSIDE state it never triggers
the OUTSIDE → INSIDE transition, and in the INSIDE state it always closes the
current run at that index (emitting it only if it passes the debounce). -/
theorem thr_sample_outside (thr : ℚ) (minSamp i startIdx : ℕ)
    (rest : List ℚ) :
    scanRuns thr minSamp i false startIdx (thr :: rest) =
      scanRuns thr minSamp (i + 1) false startIdx rest
    ∧ scanRuns thr minSamp i true startIdx (thr :: rest) =
      (if minSamp ≤ i - startIdx then [(startIdx, i)] else []) ++
        scanRuns thr minSamp (i + 1) false startIdx rest := by
  constructor <;> simp [scanRuns]

/-- C7: with an ROI mask containing no true pixel the total pixel count is
zero, and both `compute_red_ratio` and `compute_red_expansion` return their
default values (ratio 0; ratios 0, stability 1, expansion 0) instead of
dividing by zero. -/
theorem zero_roi_defaults (frame prevFrame currFrame : List Pixel)
    (mask : List Bool) (sMin vMin : ℕ) (bgNormFactor : ℚ)
    (hmask : mask.count true = 0) :
    computeRedRatio frame (some mask) sMin vMin = 0 ∧
    computeRedExpansion prevFrame currFrame (some mask) sMin vMin
      bgNormFactor = ⟨0, 0, 1, 0⟩ := by
  constructor
  · simp [computeRedRatio, hmask]
  · simp [computeRedExpansion, hmask]

/-- Witness for C7 at a concrete all-false one-pixel ROI. -/
theorem zero_roi_defaults_witness :
    ([false] : List Bool).count true = 0 ∧
    computeRedRatio [⟨0, 0, 0, 0⟩] (some [false]) 60 40 = 0 ∧
    computeRedExpansion [⟨0, 0, 0, 0⟩] [⟨0, 0, 0, 0⟩] (some [false]) 60 40 30 =
      ⟨0, 0, 1, 0⟩ :=
  ⟨by decide,
    (zero_roi_defaults [⟨0, 0, 0, 0⟩] [⟨0, 0, 0, 0⟩] [⟨0, 0, 0, 0⟩] [false]
      60 40 30 (by decide)).1,
    (zero_roi_defaults [⟨0, 0, 0, 0⟩] [⟨0, 0, 0, 0⟩] [⟨0, 0, 0, 0⟩] [false]
      60 40 30 (by decide)).2⟩

/-- C8 counterexample: at margin exactly 0.5 on a 2×2 frame the radius is 0
and the pixel (1, 1) sits exactly on the centre, so the mask is not
all-false. -/
theorem roi_margin_half_counterexample :
    ((makeCircularRoi 2 2 (1 / 2)).getD 1 []).getD 1 false = true := by
  have h2 : List.range 2 = [0, 1] := rfl
  norm_num [makeCircularRoi, h2]

/-- C8 (amended): for every frame of height ≥ 1 and width ≥ 1 and every
margin strictly greater than 0.5, `make_circular_roi` returns an all-false
mask, so every count over the ROI is zero.  (At margin exactly 0.5 the radius
is 0 and a pixel exactly at the centre — both dimensions even — is inside;
see the counterexample.) -/
theorem roi_margin_empty (height width : ℕ) (margin : ℚ)
    (hh : 1 ≤ height) (hw : 1 ≤ width) (hm : 1 / 2 < margin) :
    (∀ row ∈ makeCircularRoi height width margin, ∀ b ∈ row, b = false) ∧
    (makeCircularRoi height width margin).flatten.count true = 0 := by
  have hrad : ((min height width : ℕ) : ℚ) * (1 / 2 - margin) < 0 := by
    apply mul_neg_of_pos_of_neg
    · have : 1 ≤ min height width := le_min hh hw
      exact_mod_cast Nat.lt_of_lt_of_le Nat.zero_lt_one this
    · linarith
  have hall : ∀ row ∈ makeCircularRoi height width margin,
      ∀ b ∈ row, b = false := by
    intro row hrow b hb
    simp only [makeCircularRoi, List.mem_map, List.mem_range] at hrow
    obtain ⟨y, hy, rfl⟩ := hrow
    simp only [List.mem_map, List.mem_range] at hb
    obtain ⟨x, hx, rfl⟩ := hb
    apply decide_eq_false
    rintro ⟨h0, hle⟩
    exact absurd (le_trans h0 le_rfl) (not_le.mpr hrad)
  refine ⟨hall, ?_⟩
  rw [List.count_eq_zero]
  intro hmem
  rw [List.mem_flatten] at hmem
  obtain ⟨row, hrow, htrue⟩ := hmem
  have := hall row hrow true htrue
  simp at this

/-- Witness for C8 (amended) at a 1×1 frame with margin 1. -/
theorem roi_margin_empty_witness :
    (1 ≤ 1 ∧ (1 : ℚ) / 2 < 1) ∧
    (makeCircularRoi 1 1 1).flatten.count true = 0 :=
  ⟨⟨le_rfl, by norm_num⟩,
    (roi_margin_empty 1 1 1 le_rfl le_rfl (by norm_num)).2⟩

/-- A contiguous slice of a list, written with indexed reads. -/
theorem take_drop_eq_map_range (l : List ℚ) (lo k : ℕ) (h : lo + k ≤ l.length) :
    (l.drop lo).take k = (List.range k).map (fun j => l.getD (lo + j) 0) := by
  apply List.ext_getElem
  · simp; omega
  · intro n h1 h2
    simp only [List.getElem_take, List.getElem_drop, List.getElem_map,
      List.getElem_range]
    rw [List.getD_eq_getElem]

/-- Sum of a mapped index range as a `Finset.range` sum. -/
theorem sum_map_range (f : ℕ → ℚ) (k : ℕ) :
    ((List.range k).map f).sum = ∑ j in Finset.range k, f j := by
  induction k with
  | zero => simp
  | succ k ih =>
      rw [List.range_succ, List.map_append, List.sum_append,
        Finset.sum_range_succ, ih]
      simp

/-- The sum of the slice `l[lo:hi]` equals the indexed sum over `[lo, hi)`. -/
theorem slice_sum (l : List ℚ) (lo hi : ℕ) (hlo : lo ≤ hi)
    (hhi : hi ≤ l.length) :
    ((l.drop lo).take (hi - lo)).sum = ∑ j in Finset.Ico lo hi, l.getD j 0 := by
  rw [take_drop_eq_map_range l lo (hi - lo) (by omega), sum_map_range,
    Finset.sum_Ico_eq_sum_range]

/-- C6: for every window `W ≥ 1`, `smooth_center` preserves the length, each
output element is the arithmetic mean of the input over
`[max(0, i − ⌊W/2⌋), min(n, i + ⌊W/2⌋ + 1))` (`i - W / 2` is ℕ subtraction,
hence the `max(0, ·)`), and `W = 1` returns the input unchanged. -/
theorem smoothCenter_spec (values : List ℚ) (window : ℕ) (hW : 1 ≤ window) :
    (smoothCenter values window).length = values.length
    ∧ (∀ i, i < values.length →
        (smoothCenter values window).getD i 0 =
          (∑ j in Finset.Ico (i - window / 2)
              (min values.length (i + window / 2 + 1)), values.getD j 0) /
            ((min values.length (i + window / 2 + 1) - (i - window / 2) : ℕ) : ℚ))
    ∧ (window = 1 → smoothCenter values window = values) := by
  by_cases h1 : values.length = 0 ∨ window ≤ 1
  · have hsm : smoothCenter values window = values := by
      simp only [smoothCenter, if_pos h1]
    refine ⟨by rw [hsm], ?_, fun _ => hsm⟩
    intro i hi
    have hw1 : window = 1 := by omega
    subst hw1
    have hmin : min values.length (i + 1 / 2 + 1) = i + 1 := by omega
    rw [hsm, hmin]
    have hlo : i - 1 / 2 = i := by omega
    rw [hlo]
    rw [Finset.sum_Ico_eq_sum_range]
    simp
  · have hsm : smoothCenter values window =
        (List.range values.length).map fun i =>
          ((values.drop (i - window / 2)).take
            (min values.length (i + window / 2 + 1) - (i - window / 2))).sum /
          ((min values.length (i + window / 2 + 1) - (i - window / 2) : ℕ) : ℚ) := by
      simp only [smoothCenter, if_neg h1]
    refine ⟨by rw [hsm]; simp, ?_, ?_⟩
    · intro i hi
      rw [hsm]
      rw [List.getD_eq_getElem _ _ (by simpa using hi)]
      simp only [List.getElem_map, List.getElem_range]
      rw [slice_sum values _ _ (by omega) (min_le_left _ _)]
    · intro hw1
      exact absurd (Or.inr (le_of_eq hw1)) h1

/-- Witness for C6: window 1 reproduces a concrete input. -/
theorem smoothCenter_spec_witness :
    1 ≤ 1 ∧ smoothCenter [1, 2] 1 = [1, 2] :=
  ⟨le_rfl, (smoothCenter_spec [1, 2] 1 le_rfl).2.2 rfl⟩

/-- Counting the true entries of a mask ANDed with a second mask never exceeds
the true count of the second mask. -/
theorem count_zipWith_and_le (l m : List Bool) :
    (l.zipWith (fun a b => a && b) m).count true ≤ m.count true := by
  induction l generalizing m with
  | nil => simp
  | cons a l ih =>
      cases m with
      | nil => simp
      | cons b m =>
          simp only [List.zipWith_cons_cons, List.count_cons]
          have h := ih m
          cases a <;> cases b <;> simp <;> omega

/-- C2: for equally-sized frames, any optional ROI mask, and any positive
background normalization factor, `compute_red_expansion` returns
`red_expansion` equal to the exact product `newly_red_ratio × bg_stability`,
and `red_expansion` lies in `[0, 1]`. -/
theorem red_expansion_product_bounds (prevFrame currFrame : List Pixel)
    (roiMask : Option (List Bool)) (sMin vMin : ℕ) (bgNormFactor : ℚ)
    (hlen : prevFrame.length = currFrame.length) (hf : 0 < bgNormFactor) :
    (computeRedExpansion prevFrame currFrame roiMask sMin vMin
        bgNormFactor).redExpansion =
      (computeRedExpansion prevFrame currFrame roiMask sMin vMin
        bgNormFactor).newlyRedRatio *
      (computeRedExpansion prevFrame currFrame roiMask sMin vMin
        bgNormFactor).bgStability
    ∧ 0 ≤ (computeRedExpansion prevFrame currFrame roiMask sMin vMin
        bgNormFactor).redExpansion
    ∧ (computeRedExpansion prevFrame currFrame roiMask sMin vMin
        bgNormFactor).redExpansion ≤ 1 := by
  have key : ∀ (nr tp : ℕ) (bgd f : ℚ), nr ≤ tp → tp ≠ 0 → 0 ≤ bgd → 0 < f →
      0 ≤ ((nr : ℚ) / tp) * (1 - min (bgd / f) 1)
        ∧ ((nr : ℚ) / tp) * (1 - min (bgd / f) 1) ≤ 1 := by
    intro nr tp bgd f hnr htp hbg hff
    have htp2 : (0 : ℚ) < tp := by exact_mod_cast Nat.pos_of_ne_zero htp
    have h1 : 0 ≤ (nr : ℚ) / tp := by positivity
    have h2 : (nr : ℚ) / tp ≤ 1 := by
      rw [div_le_one htp2]
      exact_mod_cast hnr
    have hmin1 : min (bgd / f) 1 ≤ 1 := min_le_right _ _
    have hmin0 : 0 ≤ min (bgd / f) 1 := le_min (by positivity) zero_le_one
    have h3 : 0 ≤ 1 - min (bgd / f) 1 := by linarith
    have h4 : 1 - min (bgd / f) 1 ≤ 1 := by linarith
    exact ⟨mul_nonneg h1 h3, mul_le_one₀ h2 h3 h4⟩
  rcases roiMask with _ | roi
  · simp only [computeRedExpansion]
    split
    · norm_num
    · rename_i htp
      refine ⟨rfl, ?_⟩
      apply key
      · calc ((makeRedMask sMin vMin currFrame).zipWith (fun c p => c && !p)
              (makeRedMask sMin vMin prevFrame)).count true
            ≤ ((makeRedMask sMin vMin currFrame).zipWith (fun c p => c && !p)
              (makeRedMask sMin vMin prevFrame)).length :=
              List.count_le_length _ _
          _ ≤ currFrame.length := by
              rw [List.length_zipWith]
              simp [makeRedMask, hlen]
      · exact htp
      · split
        · positivity
        · exact le_refl 0
      · exact hf
  · simp only [computeRedExpansion]
    split
    · norm_num
    · rename_i htp
      refine ⟨rfl, ?_⟩
      apply key
      · exact count_zipWith_and_le _ roi
      · exact htp
      · split
        · positivity
        · exact le_refl 0
      · exact hf

/-- Witness for C2 at a concrete one-pixel frame pair. -/
theorem red_expansion_product_bounds_witness :
    ([⟨0, 0, 0, 0⟩] : List Pixel).length = ([⟨0, 0, 0, 0⟩] : List Pixel).length
    ∧ (0 : ℚ) < 30
    ∧ 0 ≤ (computeRedExpansion [⟨0, 0, 0, 0⟩] [⟨0, 0, 0, 0⟩] none 60 40
        30).redExpansion :=
  ⟨rfl, by norm_num,
    (red_expansion_product_bounds [⟨0, 0, 0, 0⟩] [⟨0, 0, 0, 0⟩] none 60 40 30
      rfl (by norm_num)).2.1⟩

/-- Folding `max` over copies of the starting value is the identity. -/
theorem foldl_max_replicate (x : ℚ) (k : ℕ) :
    List.foldl max x (List.replicate k x) = x := by
  induction k with
  | zero => rfl
  | succ k ih => simp [List.replicate_succ, ih]

/-- The maximum of a nonempty constant list is its constant. -/
theorem listMax_replicate (n : ℕ) (x : ℚ) (hn : 1 ≤ n) :
    listMax (List.replicate n x) = x := by
  cases n with
  | zero => omega
  | succ k =>
      unfold listMax
      rw [List.replicate_succ]
      simp only [List.headD_cons]
      rw [← List.replicate_succ]
      exact foldl_max_replicate x (k + 1)

/-- A nonempty constant list has zero population variance. -/
theorem npVar_replicate (n : ℕ) (d : ℚ) (hn : 1 ≤ n) :
    npVar (List.replicate n d) = 0 := by
  have hmean : npMean (List.replicate n d) = d := by
    unfold npMean
    rw [List.sum_replicate, List.length_replicate, nsmul_eq_mul]
    have hn0 : (n : ℚ) ≠ 0 := Nat.cast_ne_zero.mpr (by omega)
    field_simp
  unfold npVar
  rw [hmean]
  simp

/-- C5: when every cell changes by the same constant `d` (uniform change, as
under camera pan), `compute_spread_score` returns `delta_std = 0` and hence
`spread_score = 0`, even though for `d > 0` the returned `max_cell_delta`
is `d > 0`. -/
theorem uniform_change_zero_spread (prevCells currCells : List ℚ) (d : ℚ)
    (hne : prevCells ≠ [])
    (hdelta : currCells.zipWith (fun c p => c - p) prevCells =
      List.replicate prevCells.length d) :
    (computeSpreadScore prevCells currCells).deltaStd = 0
    ∧ (computeSpreadScore prevCells currCells).spreadScore = 0
    ∧ (0 < d → (computeSpreadScore prevCells currCells).maxCellDelta = d) := by
  have hn : 1 ≤ prevCells.length := List.length_pos.mpr hne
  have hvar := npVar_replicate prevCells.length d hn
  have hstd : (computeSpreadScore prevCells currCells).deltaStd = 0 := by
    simp only [computeSpreadScore]
    rw [hdelta, hvar]
    simp
  refine ⟨hstd, ?_, ?_⟩
  · have hprod : (computeSpreadScore prevCells currCells).spreadScore =
        (computeSpreadScore prevCells currCells).deltaStd *
          ((computeSpreadScore prevCells currCells).maxCellDelta : ℝ) := by
      simp only [computeSpreadScore]
    rw [hprod, hstd, zero_mul]
  · intro hd
    simp only [computeSpreadScore]
    rw [hdelta, List.map_replicate]
    rw [listMax_replicate _ _ hn]
    exact max_eq_left hd.le

/-- Witness for C5 at a concrete uniform change of +1 on a 2-cell grid. -/
theorem uniform_change_zero_spread_witness :
    ([0, 0] : List ℚ) ≠ [] ∧
    (computeSpreadScore [0, 0] [1, 1]).deltaStd = 0 ∧
    (computeSpreadScore [0, 0] [1, 1]).spreadScore = 0 :=
  ⟨List.cons_ne_nil _ _,
    (uniform_change_zero_spread [0, 0] [1, 1] 1 (List.cons_ne_nil _ _)
      (by norm_num [List.replicate])).1,
    (uniform_change_zero_spread [0, 0] [1, 1] 1 (List.cons_ne_nil _ _)
      (by norm_num [List.replicate])).2.1⟩

/-- The cell boundary `int(r * (h / g))` equals the ℕ division `r * h / g`. -/
theorem cellBound_eq_div (h g r : ℕ) :
    cellBound h g r = r * h / g := by
  unfold cellBound
  rw [Int.floor_toNat]
  have hcast : (r : ℚ) * ((h : ℚ) / (g : ℚ)) = ((r * h : ℕ) : ℚ) / ((g : ℕ) : ℚ) := by
    push_cast
    ring
  rw [hcast, Nat.floor_div_eq_div]

/-- C9: for every `h ≥ 1`, `g ≥ 1`, the cell boundaries of
`compute_cell_ratios` partition the frame: row 0 starts at pixel row 0, the
last row ends at `h`, boundaries are monotone (each row's upper bound is by
construction the next row's lower bound — the code computes both by the same
expression `cellBound h g (r+1)`), and every pixel row `p < h` lies in
exactly one cell interval `[cellBound h g r, cellBound h g (r+1))`.
Columns are the same statement with `h` replaced by the width. -/
theorem cellBound_partition (h g : ℕ) (hh : 1 ≤ h) (hg : 1 ≤ g) :
    cellBound h g 0 = 0
    ∧ cellBound h g g = h
    ∧ (∀ r, cellBound h g r ≤ cellBound h g (r + 1))
    ∧ ∀ p, p < h → ∃! r, r < g ∧ cellBound h g r ≤ p ∧ p < cellBound h g (r + 1) := by
  have hg0 : 0 < g := hg
  have hh0 : 0 < h := hh
  refine ⟨by rw [cellBound_eq_div]; simp, ?_, ?_, ?_⟩
  · rw [cellBound_eq_div]
    exact Nat.mul_div_cancel_left h hg0
  · intro r
    rw [cellBound_eq_div, cellBound_eq_div]
    exact Nat.div_le_div_right (Nat.mul_le_mul_right h (Nat.le_succ r))
  · intro p hp
    set N := (p + 1) * g with hN
    have hN1 : 1 ≤ N := Nat.mul_pos (by omega) hg0
    have hcond : ∀ r : ℕ, (cellBound h g r ≤ p ∧ p < cellBound h g (r + 1)) ↔
        (r * h < N ∧ N ≤ (r + 1) * h) := by
      intro r
      rw [cellBound_eq_div, cellBound_eq_div]
      constructor
      · rintro ⟨hle, hlt⟩
        exact ⟨(Nat.div_lt_iff_lt_mul hg0).mp (Nat.lt_succ_of_le hle),
          (Nat.le_div_iff_mul_le hg0).mp (Nat.succ_le_of_lt hlt)⟩
      · rintro ⟨hlt, hle⟩
        exact ⟨Nat.lt_succ_iff.mp ((Nat.div_lt_iff_lt_mul hg0).mpr hlt),
          Nat.lt_of_succ_le ((Nat.le_div_iff_mul_le hg0).mpr hle)⟩
    have huniq : ∀ r r' : ℕ, (r * h < N ∧ N ≤ (r + 1) * h) →
        (r' * h < N ∧ N ≤ (r' + 1) * h) → r = r' := by
      intro r r' ⟨ha1, ha2⟩ ⟨hb1, hb2⟩
      by_contra hne
      rcases Nat.lt_or_ge r r' with hlt | hge
      · have hstep : (r + 1) * h ≤ r' * h := Nat.mul_le_mul_right h hlt
        exact Nat.lt_irrefl N
          (Nat.lt_of_le_of_lt (Nat.le_trans ha2 hstep) hb1)
      · have hlt2 : r' < r := by omega
        have hstep : (r' + 1) * h ≤ r * h := Nat.mul_le_mul_right h hlt2
        exact Nat.lt_irrefl N
          (Nat.lt_of_le_of_lt (Nat.le_trans hb2 hstep) ha1)
    set r0 := (N - 1) / h with hr0
    have hr0lt : r0 * h < N :=
      Nat.lt_of_le_of_lt (Nat.div_mul_le_self _ _)
        (Nat.sub_lt (Nat.lt_of_lt_of_le Nat.zero_lt_one hN1) Nat.zero_lt_one)
    have hr0le : N ≤ (r0 + 1) * h := by
      have h2 : N - 1 < (r0 + 1) * h := by
        rw [Nat.succ_mul]
        exact Nat.lt_div_mul_add hh0
      exact Nat.le_of_pred_lt h2
    have hr0g : r0 < g := by
      have hNle : N ≤ h * g := by
        rw [hN]
        exact Nat.mul_le_mul_right g hp
      have hfin : r0 * h < g * h := by
        rw [Nat.mul_comm g h]
        exact Nat.lt_of_lt_of_le hr0lt hNle
      exact Nat.lt_of_mul_lt_mul_right hfin
    refine ⟨r0, ⟨hr0g, (hcond r0).mpr ⟨hr0lt, hr0le⟩⟩, ?_⟩
    rintro r' ⟨hr'g, hr'cond⟩
    exact huniq r' r0 ((hcond r').mp hr'cond) ⟨hr0lt, hr0le⟩

/-- Witness for C9 on a 3-pixel-high frame with a 2×2 grid. -/
theorem cellBound_partition_witness :
    (1 ≤ 3 ∧ 1 ≤ 2) ∧ cellBound 3 2 0 = 0 ∧ cellBound 3 2 2 = 3 :=
  ⟨⟨by omega, by omega⟩,
    (cellBound_partition 3 2 (by omega) (by omega)).1,
    (cellBound_partition 3 2 (by omega) (by omega)).2.1⟩

/-- The scan advances over below-threshold samples without changing state. -/
theorem scanRuns_skip (thr : ℚ) (m : ℕ) (pre : List ℚ)
    (hpre : ∀ v ∈ pre, v ≤ thr) (i s : ℕ) (rest : List ℚ) :
    scanRuns thr m i false s (pre ++ rest) =
      scanRuns thr m (i + pre.length) false s rest := by
  induction pre generalizing i with
  | nil => simp
  | cons v pre ih =>
      have hv : ¬ thr < v := not_lt.mpr (hpre v (List.mem_cons_self _ _))
      rw [List.cons_append]
      simp only [scanRuns, if_neg hv, Bool.false_eq_true, if_false]
      rw [ih (fun u hu => hpre u (List.mem_cons_of_mem _ hu)) (i + 1)]
      congr 1
      simp [List.length_cons]
      omega

/-- The scan stays INSIDE over above-threshold samples, keeping the recorded
start index. -/
theorem scanRuns_run (thr : ℚ) (m : ℕ) (run : List ℚ)
    (hrun : ∀ v ∈ run, thr < v) (i s : ℕ) (rest : List ℚ) :
    scanRuns thr m i true s (run ++ rest) =
      scanRuns thr m (i + run.length) true s rest := by
  induction run generalizing i with
  | nil => simp
  | cons v run ih =>
      have hv : thr < v := hrun v (List.mem_cons_self _ _)
      rw [List.cons_append]
      simp only [scanRuns, if_pos hv, if_true]
      rw [ih (fun u hu => hrun u (List.mem_cons_of_mem _ hu)) (i + 1)]
      congr 1
      simp [List.length_cons]
      omega

/-- Starting OUTSIDE, a series that never exceeds the threshold produces no
run. -/
theorem scanRuns_all_le (thr : ℚ) (m : ℕ) (l : List ℚ)
    (hl : ∀ v ∈ l, v ≤ thr) (i s : ℕ) :
    scanRuns thr m i false s l = [] := by
  have h := scanRuns_skip thr m l hl i s []
  rw [List.append_nil] at h
  rw [h]
  simp [scanRuns]

/-- A series with a single maximal above-threshold run produces exactly that
run when it passes the debounce and nothing otherwise. -/
theorem scanRuns_single_run (thr : ℚ) (m : ℕ) (pre run post : List ℚ)
    (hpre : ∀ v ∈ pre, v ≤ thr) (hrun : ∀ v ∈ run, thr < v)
    (hpost : ∀ v ∈ post, v ≤ thr) (hne : run ≠ []) :
    scanRuns thr m 0 false 0 (pre ++ run ++ post) =
      if m ≤ run.length then [(pre.length, pre.length + run.length)]
      else [] := by
  rw [List.append_assoc, scanRuns_skip thr m pre hpre 0 0 (run ++ post)]
  rcases run with _ | ⟨v, run'⟩
  · exact absurd rfl hne
  · have hv : thr < v := hrun v (List.mem_cons_self _ _)
    rw [List.cons_append]
    simp only [scanRuns, if_pos hv, Bool.false_eq_true, if_false]
    rw [scanRuns_run thr m run'
      (fun u hu => hrun u (List.mem_cons_of_mem _ hu)) _ _ post]
    rcases post with _ | ⟨w, post'⟩
    · simp only [scanRuns, true_and, List.length_cons]
      have h1 : 0 + pre.length + 1 + run'.length - (0 + pre.length) =
          run'.length + 1 := by omega
      have h2 : 0 + pre.length = pre.length := by omega
      have h4 : pre.length + 1 + run'.length =
          pre.length + (run'.length + 1) := by omega
      rw [h1, h2, h4]
    · have hw : ¬ thr < w := not_lt.mpr (hpost w (List.mem_cons_self _ _))
      simp only [scanRuns, if_neg hw, if_true]
      rw [scanRuns_all_le thr m post'
        (fun u hu => hpost u (List.mem_cons_of_mem _ hu))]
      rw [List.append_nil]
      simp only [List.length_cons]
      have h1 : 0 + pre.length + 1 + run'.length - (0 + pre.length) =
          run'.length + 1 := by omega
      have h2 : 0 + pre.length = pre.length := by omega
      have h4 : pre.length + 1 + run'.length =
          pre.length + (run'.length + 1) := by omega
      rw [h1, h2, h4]

/-- C3: on a series whose only above-threshold samples form one maximal
consecutive run, `extract_bleed_events` emits no event when the run length is
exactly `min_samples − 1` (for `min_samples ≥ 2`), and exactly one event when
the run length is exactly `min_samples`. -/
theorem run_length_boundary (times pre run post : List ℚ)
    (thr kS fps smoothS : ℚ)
    (hpre : ∀ v ∈ pre, v ≤ thr) (hrun : ∀ v ∈ run, thr < v)
    (hpost : ∀ v ∈ post, v ≤ thr) (hne : run ≠ []) :
    (2 ≤ minSamples kS fps ∧ run.length = minSamples kS fps - 1 →
      extractBleedEvents times (pre ++ run ++ post) thr kS fps smoothS = [])
    ∧ (run.length = minSamples kS fps →
      (extractBleedEvents times (pre ++ run ++ post) thr kS fps
        smoothS).length = 1) := by
  have hrunpos : 0 < run.length := List.length_pos.mpr hne
  have hlen0 : ¬ (pre ++ run ++ post).length = 0 := by
    simp only [List.length_append]
    omega
  have hscan := scanRuns_single_run thr (minSamples kS fps) pre run post
    hpre hrun hpost hne
  constructor
  · rintro ⟨h2, hlen⟩
    unfold extractBleedEvents
    rw [if_neg hlen0, hscan, if_neg (by omega), List.map_nil]
  · intro hlen
    unfold extractBleedEvents
    rw [if_neg hlen0, hscan, if_pos (by omega)]
    simp

/-- Witness for C3 at `k_s = 1`, `fps = 2` (`min_samples = 2`) and a run of
length exactly 2. -/
theorem run_length_boundary_witness :
    (∀ v ∈ ([1, 1] : List ℚ), (0 : ℚ) < v) ∧
    (extractBleedEvents [0, 1] ([] ++ [1, 1] ++ []) 0 1 2 5).length = 1 :=
  ⟨by norm_num,
    (run_length_boundary [0, 1] [] [1, 1] [] 0 1 2 5 (by simp) (by norm_num)
      (by simp) (by simp)).2 (by norm_num [minSamples, pyRound]; rfl)⟩

/-- The fold of `max` never falls below its initial value. -/
theorem le_foldl_max (xs : List ℚ) (x : ℚ) : x ≤ xs.foldl max x := by
  induction xs generalizing x with
  | nil => exact le_rfl
  | cons y xs ih => exact le_trans (le_max_left x y) (ih (max x y))

/-- Every list element is bounded by the `max` fold. -/
theorem mem_le_foldl_max (xs : List ℚ) (x : ℚ) :
    ∀ y ∈ xs, y ≤ xs.foldl max x := by
  induction xs generalizing x with
  | nil => intro y hy; cases hy
  | cons z xs ih =>
      intro y hy
      rcases List.mem_cons.mp hy with rfl | hmem
      · exact le_trans (le_max_right x y) (le_foldl_max xs (max x y))
      · exact ih (max x z) y hmem

/-- The `max` fold returns its initial value or a list element. -/
theorem foldl_max_mem (xs : List ℚ) (x : ℚ) :
    xs.foldl max x = x ∨ xs.foldl max x ∈ xs := by
  induction xs generalizing x with
  | nil => exact Or.inl rfl
  | cons z xs ih =>
      rcases ih (max x z) with heq | hmem
      · rcases max_choice x z with hx | hz
        · exact Or.inl (by rw [List.foldl_cons, heq, hx])
        · exact Or.inr (by
            rw [List.foldl_cons, heq, hz]
            exact List.mem_cons_self _ _)
      · exact Or.inr (List.mem_cons_of_mem _ (by rw [List.foldl_cons]; exact hmem))

/-- Every element of a list is at most its `listMax`. -/
theorem le_listMax (l : List ℚ) : ∀ y ∈ l, y ≤ listMax l := by
  intro y hy
  unfold listMax
  exact mem_le_foldl_max l (l.headD 0) y hy

/-- The `listMax` of a nonempty list is one of its elements. -/
theorem listMax_mem (l : List ℚ) (hne : l ≠ []) : listMax l ∈ l := by
  unfold listMax
  rcases foldl_max_mem l (l.headD 0) with heq | hmem
  · rw [heq]
    rcases l with _ | ⟨x, xs⟩
    · exact absurd rfl hne
    · simp
  · exact hmem

/-- The maximum of the slice `l[a:e]` is attained at an index in `[a, e)`
and bounds every element of that range. -/
theorem slice_max_spec (l : List ℚ) (a e : ℕ) (ha : a < e) (he : e ≤ l.length) :
    (∃ j, a ≤ j ∧ j < e ∧ l.getD j 0 = listMax ((l.drop a).take (e - a)))
    ∧ (∀ j, a ≤ j → j < e → l.getD j 0 ≤ listMax ((l.drop a).take (e - a))) := by
  have hslice := take_drop_eq_map_range l a (e - a) (by omega)
  rw [hslice]
  constructor
  · have hne : (List.range (e - a)).map (fun j => l.getD (a + j) 0) ≠ [] := by
      simp only [ne_eq, List.map_eq_nil_iff, List.range_eq_nil]
      omega
    have hmem := listMax_mem _ hne
    obtain ⟨j, hj, heq⟩ := List.mem_map.mp hmem
    have hjr : j < e - a := List.mem_range.mp hj
    exact ⟨a + j, by omega, by omega, heq⟩
  · intro j haj hje
    have hmem : l.getD j 0 ∈ (List.range (e - a)).map (fun j => l.getD (a + j) 0) := by
      apply List.mem_map.mpr
      refine ⟨j - a, List.mem_range.mpr (by omega), ?_⟩
      congr 1
      omega
    exact le_listMax _ _ hmem

/-- The debounce length `min_samples` is always at least 1. -/
theorem minSamples_pos (kS fps : ℚ) : 1 ≤ minSamples kS fps := by
  unfold minSamples
  have h1 : (1 : ℤ) ≤ max 1 (pyRound (kS * fps)) := le_max_left _ _
  omega

/-- Indexed reads of a non-decreasing list are monotone. -/
theorem pairwise_le_getD (l : List ℚ) (hs : List.Pairwise (fun a b => a ≤ b) l)
    (i j : ℕ) (hij : i ≤ j) (hj : j < l.length) :
    l.getD i 0 ≤ l.getD j 0 := by
  rcases Nat.eq_or_lt_of_le hij with rfl | hlt
  · exact le_rfl
  · rw [List.getD_eq_getElem l 0 (by omega), List.getD_eq_getElem l 0 hj]
    have h := List.pairwise_iff_get.mp hs ⟨i, by omega⟩ ⟨j, hj⟩
      (Fin.mk_lt_mk.mpr hlt)
    simpa using h

/-- Soundness of the scan loop: every emitted run is nonempty, stays within
the series, passes the debounce, covers only strictly-above-threshold
samples, and the emitted runs are ordered with pairwise-disjoint index
ranges.  `rest` is the suffix `l.drop i` still to be scanned and the
hypothesis on `b` is the loop invariant for the INSIDE state. -/
theorem scanRuns_sound (thr : ℚ) (m : ℕ) (hm : 1 ≤ m) (l : List ℚ) :
    ∀ (rest : List ℚ) (i : ℕ) (b : Bool) (s : ℕ),
      rest = l.drop i → i ≤ l.length →
      (b = true → s ≤ i ∧ ∀ j, s ≤ j → j < i → thr < l.getD j 0) →
      (∀ p ∈ scanRuns thr m i b s rest,
        (if b = true then s else i) ≤ p.1 ∧ p.1 < p.2 ∧ p.2 ≤ l.length ∧
          m ≤ p.2 - p.1 ∧ ∀ j, p.1 ≤ j → j < p.2 → thr < l.getD j 0)
      ∧ (scanRuns thr m i b s rest).Pairwise
          (fun p q => p.1 < q.1 ∧ p.2 ≤ q.1) := by
  intro rest
  induction rest with
  | nil =>
      intro i b s hrest hi hb
      cases b with
      | false =>
          constructor
          · intro p hp
            simp [scanRuns] at hp
          · simp [scanRuns]
      | true =>
          have hieq : i = l.length := by
            have hle : l.length ≤ i := by
              by_contra hc
              push_neg at hc
              rw [List.drop_eq_getElem_cons hc] at hrest
              simp at hrest
              omega
            omega
          obtain ⟨hsi, habv⟩ := hb rfl
          constructor
          · intro p hp
            simp only [scanRuns] at hp
            by_cases hcond : m ≤ i - s
            · rw [if_pos ⟨trivial, hcond⟩] at hp
              have hps : p = (s, i) := List.mem_singleton.mp hp
              subst hps
              exact ⟨by simp, by omega, by omega, hcond, habv⟩
            · rw [if_neg (fun h => hcond h.2)] at hp
              exact absurd hp (List.not_mem_nil p)
          · simp only [scanRuns]
            by_cases hcond : m ≤ i - s
            · rw [if_pos ⟨trivial, hcond⟩]
              exact List.pairwise_singleton _ _
            · rw [if_neg (fun h => hcond h.2)]
              exact List.Pairwise.nil
  | cons v rest ih =>
      intro i b s hrest hi hb
      have hlt : i < l.length := by
        by_contra hge
        push_neg at hge
        rw [List.drop_eq_nil_of_le hge] at hrest
        simp at hrest
      have hvrest : v = l.getD i 0 ∧ rest = l.drop (i + 1) := by
        rw [List.drop_eq_getElem_cons hlt] at hrest
        injection hrest with h1 h2
        exact ⟨by rw [h1]; exact (List.getD_eq_getElem l 0 hlt).symm, h2⟩
      obtain ⟨hv, hrest'⟩ := hvrest
      by_cases habove : thr < v
      · cases b with
        | true =>
            have hred : scanRuns thr m i true s (v :: rest) =
                scanRuns thr m (i + 1) true s rest := by
              simp only [scanRuns, if_pos habove, if_true]
            rw [hred]
            have hb' : (true : Bool) = true → s ≤ i + 1 ∧
                ∀ j, s ≤ j → j < i + 1 → thr < l.getD j 0 := by
              intro _
              obtain ⟨hsi, habv⟩ := hb rfl
              refine ⟨by omega, ?_⟩
              intro j hsj hji
              rcases Nat.lt_or_ge j i with hj | hj
              · exact habv j hsj hj
              · have hje : j = i := by omega
                rw [hje, ← hv]
                exact habove
            have hres := ih (i + 1) true s hrest' (by omega) hb'
            exact hres
        | false =>
            have hred : scanRuns thr m i false s (v :: rest) =
                scanRuns thr m (i + 1) true i rest := by
              simp only [scanRuns, if_pos habove, Bool.false_eq_true, if_false]
            rw [hred]
            have hb' : (true : Bool) = true → i ≤ i + 1 ∧
                ∀ j, i ≤ j → j < i + 1 → thr < l.getD j 0 := by
              intro _
              refine ⟨by omega, ?_⟩
              intro j hij hji
              have hje : j = i := by omega
              rw [hje, ← hv]
              exact habove
            have hres := ih (i + 1) true i hrest' (by omega) hb'
            constructor
            · intro p hp
              have hp' := hres.1 p hp
              refine ⟨?_, hp'.2.1, hp'.2.2.1, hp'.2.2.2.1, hp'.2.2.2.2⟩
              have h1 : i ≤ p.1 := by simpa using hp'.1
              simpa using h1
            · exact hres.2
      · cases b with
        | true =>
            have hred : scanRuns thr m i true s (v :: rest) =
                (if m ≤ i - s then [(s, i)] else []) ++
                  scanRuns thr m (i + 1) false s rest := by
              simp only [scanRuns, if_neg habove, if_true]
            rw [hred]
            obtain ⟨hsi, habv⟩ := hb rfl
            have hres := ih (i + 1) false s hrest' (by omega)
              (fun h => absurd h (by simp))
            constructor
            · intro p hp
              rcases List.mem_append.mp hp with hp1 | hp2
              · by_cases hcond : m ≤ i - s
                · rw [if_pos hcond] at hp1
                  have hps : p = (s, i) := List.mem_singleton.mp hp1
                  subst hps
                  exact ⟨by simp, by omega, by omega, hcond, habv⟩
                · rw [if_neg hcond] at hp1
                  exact absurd hp1 (List.not_mem_nil p)
              · have hp' := hres.1 p hp2
                refine ⟨?_, hp'.2.1, hp'.2.2.1, hp'.2.2.2.1, hp'.2.2.2.2⟩
                have h1 : i + 1 ≤ p.1 := by simpa using hp'.1
                simp
                omega
            · rw [List.pairwise_append]
              refine ⟨?_, hres.2, ?_⟩
              · by_cases hcond : m ≤ i - s
                · rw [if_pos hcond]
                  exact List.pairwise_singleton _ _
                · rw [if_neg hcond]
                  exact List.Pairwise.nil
              · intro p hp1 q hq2
                by_cases hcond : m ≤ i - s
                · rw [if_pos hcond] at hp1
                  have hps : p = (s, i) := List.mem_singleton.mp hp1
                  have hq' := hres.1 q hq2
                  have hq1 : i + 1 ≤ q.1 := by simpa using hq'.1
                  rw [hps]
                  exact ⟨by omega, by omega⟩
                · rw [if_neg hcond] at hp1
                  exact absurd hp1 (List.not_mem_nil p)
        | false =>
            have hred : scanRuns thr m i false s (v :: rest) =
                scanRuns thr m (i + 1) false s rest := by
              simp only [scanRuns, if_neg habove, Bool.false_eq_true, if_false]
            rw [hred]
            have hres := ih (i + 1) false s hrest' (by omega)
              (fun h => absurd h (by simp))
            constructor
            · intro p hp
              have hp' := hres.1 p hp
              refine ⟨?_, hp'.2.1, hp'.2.2.1, hp'.2.2.2.1, hp'.2.2.2.2⟩
              have h1 : i + 1 ≤ p.1 := by simpa using hp'.1
              simp
              omega
            · exact hres.2

/-- C10: with non-decreasing timestamps and matching lengths, the events of
`extract_bleed_events` are exactly the debounced runs in scan order (so in
increasing start order with pairwise-disjoint sample ranges); every sample in
an emitted run is strictly above `thr`; the `delta_max` of each event is the
maximum of the series over its range rounded to 6 decimals; and the start
timestamp of each event is at most its end timestamp. -/
theorem extract_bleed_events_invariants (times smoothDeltas : List ℚ)
    (thr kS fps smoothS : ℚ)
    (hlen : times.length = smoothDeltas.length)
    (hsort : List.Pairwise (fun a b => a ≤ b) times) :
    extractBleedEvents times smoothDeltas thr kS fps smoothS =
      (scanRuns thr (minSamples kS fps) 0 false 0 smoothDeltas).map
        (fun r => addEvent times smoothDeltas thr kS smoothS r.1 r.2)
    ∧ (scanRuns thr (minSamples kS fps) 0 false 0 smoothDeltas).Pairwise
        (fun p q => p.1 < q.1 ∧ p.2 ≤ q.1)
    ∧ (∀ p ∈ scanRuns thr (minSamples kS fps) 0 false 0 smoothDeltas,
        p.1 < p.2 ∧ p.2 ≤ smoothDeltas.length
          ∧ minSamples kS fps ≤ p.2 - p.1
          ∧ ∀ j, p.1 ≤ j → j < p.2 → thr < smoothDeltas.getD j 0)
    ∧ (∀ p ∈ scanRuns thr (minSamples kS fps) 0 false 0 smoothDeltas,
        ∃ M, (addEvent times smoothDeltas thr kS smoothS p.1 p.2).deltaMax
            = round6 M
          ∧ (∃ j, p.1 ≤ j ∧ j < p.2 ∧ smoothDeltas.getD j 0 = M)
          ∧ ∀ j, p.1 ≤ j → j < p.2 → smoothDeltas.getD j 0 ≤ M)
    ∧ ∀ p ∈ scanRuns thr (minSamples kS fps) 0 false 0 smoothDeltas,
        (addEvent times smoothDeltas thr kS smoothS p.1 p.2).start ≤
          (addEvent times smoothDeltas thr kS smoothS p.1 p.2).stop := by
  have hm := minSamples_pos kS fps
  have hsound := scanRuns_sound thr (minSamples kS fps) hm smoothDeltas
    smoothDeltas 0 false 0 (List.drop_zero smoothDeltas).symm (Nat.zero_le _)
    (fun h => absurd h (by simp))
  refine ⟨?_, hsound.2, ?_, ?_, ?_⟩
  · unfold extractBleedEvents
    by_cases hnil : smoothDeltas.length = 0
    · rw [if_pos hnil]
      rw [List.eq_nil_of_length_eq_zero hnil]
      simp [scanRuns]
    · rw [if_neg hnil]
  · intro p hp
    have h := hsound.1 p hp
    exact ⟨h.2.1, h.2.2.1, h.2.2.2.1, h.2.2.2.2⟩
  · intro p hp
    have h := hsound.1 p hp
    obtain ⟨hex, hub⟩ := slice_max_spec smoothDeltas p.1 p.2 h.2.1 h.2.2.1
    exact ⟨listMax ((smoothDeltas.drop p.1).take (p.2 - p.1)), rfl, hex, hub⟩
  · intro p hp
    have h := hsound.1 p hp
    have ha := h.2.1
    have he := h.2.2.1
    show times.getD p.1 0 ≤ times.getD (p.2 - 1) 0
    apply pairwise_le_getD times hsort
    · omega
    · omega

/-- Witness for C10 on a concrete sorted two-sample series. -/
theorem extract_bleed_events_invariants_witness :
    ([(0 : ℚ), 1] : List ℚ).length = ([1, 1] : List ℚ).length ∧
    extractBleedEvents [0, 1] [1, 1] 0 1 1 5 =
      (scanRuns 0 (minSamples 1 1) 0 false 0 [1, 1]).map
        (fun r => addEvent [0, 1] [1, 1] 0 1 5 r.1 r.2) :=
  ⟨rfl, (extract_bleed_events_invariants [0, 1] [1, 1] 0 1 1 5 rfl
    (by norm_num [List.pairwise_cons])).1⟩
